import Mathlib

/-!
# Verification of the single-tree construction engine

Shallow embedding of the decision-tree training engine
(`src/tree/...`): the `Node` tagged union, the split partition logic of
`SingleTreeTrainer::processTask` / `SingleTreeTrainer::splitNodeOptimized`,
the criterion family (`MSECriterion`, `MAECriterion`, `HuberCriterion`,
`QuantileCriterion`, `LogCoshCriterion`, `PoissonCriterion`), the
`ExhaustiveSplitFinder` and `QuartileSplitFinder`, and the pruner family
(`NoPruner`, `MinGainPrePruner`, `CostComplexityPruner`,
`ReducedErrorPruner`).

C++ `double` values are modelled as exact rationals (`ℚ`) wherever the code
performs field arithmetic and comparisons only, and as real numbers (`ℝ`)
for the two criteria that use transcendental functions (`std::log`,
`std::cosh`).  `std::vector` reads `v[i]` are modelled as `List.getD i 0`;
all in-contract accesses are in bounds, so the default is never observed on
the executions the theorems quantify over.
-/

namespace EnsembleTree

/-- The tree node of `include/tree/Node.hpp`, as a tagged variant.

The C++ `struct Node` keeps `isLeaf`, `samples`, `metric` plus a `union`
of the leaf fields `{prediction, nodePrediction}` and the internal fields
`{featureIndex, threshold}` together with exclusively-owned children.
Ownership is strictly nested, so the whole tree is the inductive type
below; `samples`/`metric` are the common cached fields.  (The union's
byte-level aliasing of leaf and internal fields is a memory-layout
artifact outside this field-level model; `isLeaf` — here the constructor
tag — is the single source of truth for which fields are valid.) -/
inductive Node where
  | leaf (samples : ℕ) (metric : ℚ) (prediction : ℚ) (nodePrediction : ℚ)
  | internal (samples : ℕ) (metric : ℚ) (featureIndex : ℕ) (threshold : ℚ)
      (left : Node) (right : Node)
  deriving DecidableEq, Repr

namespace Node

/-- `Node::makeLeaf(prediction, nodePrediction)` applied to a node with
cached `samples`/`metric`: stores `prediction`, and stores
`nodePrediction` only when it is nonzero, falling back to `prediction`
otherwise (`info.leaf.nodePrediction = (nodePrediction != 0.0) ?
nodePrediction : prediction`); the children are released. -/
def makeLeaf (samples : ℕ) (metric : ℚ) (prediction : ℚ)
    (nodePrediction : ℚ) : Node :=
  .leaf samples metric prediction
    (if nodePrediction ≠ 0 then nodePrediction else prediction)

/-- `Node::getNodePrediction()`: `isLeaf ? info.leaf.nodePrediction : 0.0`. -/
def getNodePredictionFn : Node → ℚ
  | .leaf _ _ _ np => np
  | .internal _ _ _ _ _ _ => 0

/-- `Node::getPrediction()`: `isLeaf ? info.leaf.prediction : 0.0`. -/
def getPredictionFn : Node → ℚ
  | .leaf _ _ p _ => p
  | .internal _ _ _ _ _ _ => 0

/-- The cached `samples` field. -/
def samplesOf : Node → ℕ
  | .leaf s _ _ _ => s
  | .internal s _ _ _ _ _ => s

/-- The cached `metric` field. -/
def metricOf : Node → ℚ
  | .leaf _ m _ _ => m
  | .internal _ m _ _ _ _ => m

end Node

/-- Row-major feature access `data[i * rowLength + f]`. -/
def featAt (data : List ℚ) (rowLength : ℕ) (i f : ℕ) : ℚ :=
  data.getD (i * rowLength + f) 0

/-- Label access `labels[i]`. -/
def labelAt (labels : List ℚ) (i : ℕ) : ℚ :=
  labels.getD i 0

/-- The split predicate of both growth paths: sample `i` goes to the left
child iff `data[i * rowLength + f] <= thr`. -/
def goesLeft (data : List ℚ) (rowLength : ℕ) (f : ℕ) (thr : ℚ) (i : ℕ) :
    Prop :=
  featAt data rowLength i f ≤ thr

instance (data : List ℚ) (rowLength f : ℕ) (thr : ℚ) (i : ℕ) :
    Decidable (goesLeft data rowLength f thr i) := by
  unfold goesLeft; infer_instance

/-- The partition loop of `SingleTreeTrainer::processTask` (task-queue
path): one pass over `indices`, pushing each index onto `leftIndices`
when `data[idx * rowLength + bestFeat] <= bestThr` and onto
`rightIndices` otherwise, preserving the traversal order. -/
def taskPartition (data : List ℚ) (rowLength f : ℕ) (thr : ℚ) :
    List ℕ → List ℕ × List ℕ
  | [] => ([], [])
  | i :: rest =>
      let (l, r) := taskPartition data rowLength f thr rest
      if goesLeft data rowLength f thr i then (i :: l, r) else (l, i :: r)

/-- The in-place partition of `SingleTreeTrainer::splitNodeOptimized`
(recursive path): `std::partition` over the same predicate.
`std::partition` fixes the contents of the two sides exactly (every
element satisfying the predicate ends up before `partitionPoint`, the
rest after) while leaving the relative order unspecified; the model
realises the two sides as the two complementary filters, which is one
admissible `std::partition` outcome and the unique one at multiset
level. -/
def stdPartition (data : List ℚ) (rowLength f : ℕ) (thr : ℚ)
    (indices : List ℕ) : List ℕ × List ℕ :=
  (indices.filter (fun i => decide (goesLeft data rowLength f thr i)),
   indices.filter (fun i => !decide (goesLeft data rowLength f thr i)))

theorem taskPartition_eq_stdPartition (data : List ℚ) (rowLength f : ℕ)
    (thr : ℚ) (indices : List ℕ) :
    taskPartition data rowLength f thr indices =
      stdPartition data rowLength f thr indices := by
  induction indices with
  | nil => rfl
  | cons i rest ih =>
      simp only [taskPartition, stdPartition, List.filter_cons] at *
      rw [ih]
      by_cases h : goesLeft data rowLength f thr i <;>
        simp [h, stdPartition]

theorem stdPartition_perm (data : List ℚ) (rowLength f : ℕ) (thr : ℚ)
    (indices : List ℕ) :
    ((stdPartition data rowLength f thr indices).1 ++
        (stdPartition data rowLength f thr indices).2).Perm indices :=
  List.filter_append_perm _ indices

/-- C1.  Partition invariant of the growth engine: on both the
task-queue path (`processTask`, explicit push loop) and the recursive
path (`splitNodeOptimized`, `std::partition`), splitting a subset `S` on
feature `f` / threshold `t` yields left and right index lists whose
concatenation is a permutation of `S` (multiset union = `S`: nothing
dropped or duplicated), which are disjoint, and membership on the left is
exactly `data[i*rowLength+f] <= t` for every `i ∈ S`. -/
theorem c1_partition_invariant (data : List ℚ) (rowLength f : ℕ) (thr : ℚ)
    (S : List ℕ) :
    (taskPartition data rowLength f thr S = stdPartition data rowLength f thr S) ∧
    (((stdPartition data rowLength f thr S).1 ++
        (stdPartition data rowLength f thr S).2).Perm S) ∧
    (((stdPartition data rowLength f thr S).1 : Multiset ℕ) +
        ((stdPartition data rowLength f thr S).2 : Multiset ℕ) = (S : Multiset ℕ)) ∧
    (List.Disjoint (stdPartition data rowLength f thr S).1
        (stdPartition data rowLength f thr S).2) ∧
    (∀ i, i ∈ S →
      (i ∈ (stdPartition data rowLength f thr S).1 ↔
        goesLeft data rowLength f thr i)) ∧
    (∀ i, i ∈ S →
      (i ∈ (stdPartition data rowLength f thr S).2 ↔
        ¬ goesLeft data rowLength f thr i)) := by
  refine ⟨taskPartition_eq_stdPartition _ _ _ _ _, stdPartition_perm _ _ _ _ _,
    ?_, ?_, ?_, ?_⟩
  · have h := stdPartition_perm data rowLength f thr S
    calc ((stdPartition data rowLength f thr S).1 : Multiset ℕ) +
          ((stdPartition data rowLength f thr S).2 : Multiset ℕ)
        = (((stdPartition data rowLength f thr S).1 ++
            (stdPartition data rowLength f thr S).2 : List ℕ) : Multiset ℕ) := by
          simp
      _ = (S : Multiset ℕ) := Quot.sound h
  · intro a ha hb
    simp only [stdPartition, List.mem_filter] at ha hb
    rcases ha with ⟨-, ha⟩
    rcases hb with ⟨-, hb⟩
    simp only [decide_eq_true_eq, Bool.not_eq_true', decide_eq_false_iff_not]
      at ha hb
    exact hb ha
  · intro i hi
    simp [stdPartition, List.mem_filter, hi]
  · intro i hi
    simp [stdPartition, List.mem_filter, hi]

/-- C1 witness: the invariant discharged at a concrete split.  Two-column
data for four samples, splitting feature 0 at threshold `5/2`. -/
theorem c1_partition_invariant_witness :
    (2 : ℕ) ∈ [0, 1, 2, 3] ∧
    ((2 : ℕ) ∈ (stdPartition [1, 10, 2, 20, 3, 30, 4, 40] 2 0 (5/2)
        [0, 1, 2, 3]).1 ↔
      goesLeft [1, 10, 2, 20, 3, 30, 4, 40] 2 0 (5/2) 2) := by
  refine ⟨by decide, ?_⟩
  exact (c1_partition_invariant [1, 10, 2, 20, 3, 30, 4, 40] 2 0 (5/2)
    [0, 1, 2, 3]).2.2.2.2.1 2 (by decide)

/-! ## Criterion family (`src/tree/criterion/*.cpp`)

Each `nodeMetric(labels, indices)` guards `indices.empty()` with `0.0` and
otherwise aggregates over `labels[indices[i]]`.  Order of summation is
immaterial in exact arithmetic, so the OpenMP reductions are modelled as
plain list sums. -/

/-- The values `labels[indices[i]]` in traversal order. -/
def subsetVals {α : Type} [Zero α] (y : List α) (idx : List ℕ) : List α :=
  idx.map (fun i => y.getD i 0)

/-- `static_cast<size_t>` of a nonnegative rational: truncation toward
zero, i.e. `⌊q⌋` for `q ≥ 0`, computed as `num.toNat / den` so that it
evaluates by kernel reduction. -/
def ratTruncNat (q : ℚ) : ℕ := q.num.toNat / q.den

theorem ratTruncNat_zero : ratTruncNat 0 = 0 := rfl

/-- Ordered insertion with a boolean comparator (helper for the sort
model below). -/
def orderedInsertBy {α : Type} (le : α → α → Bool) (a : α) :
    List α → List α
  | [] => [a]
  | b :: l => if le a b then a :: b :: l else b :: orderedInsertBy le a l

/-- Sorting model for `std::sort` / `std::nth_element`: a stable,
structurally recursive insertion sort.  `std::sort` with a strict `<`
comparator pins the output to "nondecreasing in the key", leaving only
the relative order of key-equal elements unspecified; a stable sort is
one admissible outcome, and every place the engine sorts (exhaustive
scan, quartile/median order statistics) is insensitive to the order of
key-equal elements. -/
def sortBy {α : Type} (le : α → α → Bool) : List α → List α
  | [] => []
  | a :: l => orderedInsertBy le a (sortBy le l)

/-- `MSECriterion::nodeMetric`: `max(0, E[y²] − E[y]²)`. -/
def mseNodeMetric (labels : List ℚ) (indices : List ℕ) : ℚ :=
  if indices = [] then 0
  else
    let n : ℚ := indices.length
    let v := subsetVals labels indices
    let sum := v.sum
    let sumSq := (v.map (fun y => y * y)).sum
    let mean := sum / n
    max 0 (sumSq / n - mean * mean)

/-- `subsetMedianParallel` of `MAECriterion.cpp`: `nth_element` at `n/2`
gives the `n/2`-th order statistic; for even `n` the lower middle is
recovered as `max_element` of the first half, i.e. the `(n/2 − 1)`-th
order statistic, and the two are averaged. -/
def subsetMedian (y : List ℚ) (idx : List ℕ) : ℚ :=
  let s := sortBy (fun a b => decide (a ≤ b)) (subsetVals y idx)
  let n := idx.length
  if n % 2 = 1 then s.getD (n / 2) 0
  else (s.getD (n / 2 - 1) 0 + s.getD (n / 2) 0) / 2

/-- `MAECriterion::nodeMetric`: mean absolute deviation from the subset
median. -/
def maeNodeMetric (labels : List ℚ) (indices : List ℕ) : ℚ :=
  if indices = [] then 0
  else
    let med := subsetMedian labels indices
    ((subsetVals labels indices).map (fun v => |v - med|)).sum /
      (indices.length : ℚ)

/-- `HuberCriterion::nodeMetric`: mean Huber loss about the subset mean,
with threshold `delta` (`0.5·r²` inside, `δ·(|r| − 0.5·δ)` outside). -/
def huberNodeMetric (delta : ℚ) (labels : List ℚ) (indices : List ℕ) : ℚ :=
  if indices = [] then 0
  else
    let n : ℚ := indices.length
    let v := subsetVals labels indices
    let mu := v.sum / n
    (v.map (fun yv =>
      let r := yv - mu
      if |r| ≤ delta then r * r / 2 else delta * (|r| - delta / 2))).sum / n

/-- `QuantileCriterion::nodeMetric`: pinball loss about the empirical
`τ`-quantile `vals[⌊τ·(n−1)⌋]` (the `static_cast<size_t>` truncation of a
nonnegative product is the floor; `nth_element` places the k-th order
statistic at position k). -/
def quantileNodeMetric (tau : ℚ) (labels : List ℚ) (indices : List ℕ) : ℚ :=
  if indices = [] then 0
  else
    let n := indices.length
    let v := subsetVals labels indices
    let k : ℕ := ratTruncNat (tau * ((n : ℚ) - 1))
    let q := (sortBy (fun a b => decide (a ≤ b)) v).getD k 0
    (v.map (fun yv =>
      let d := yv - q
      if d < 0 then (tau - 1) * d else tau * d)).sum / (n : ℚ)

/-- `LogCoshCriterion::nodeMetric`: mean `log(cosh(y − μ))` about the
subset mean. -/
noncomputable def logCoshNodeMetric (labels : List ℝ) (indices : List ℕ) :
    ℝ :=
  if indices = [] then 0
  else
    let n : ℝ := indices.length
    let v := subsetVals labels indices
    let mu := v.sum / n
    (v.map (fun yv => Real.log (Real.cosh (yv - mu)))).sum / n

/-- `PoissonCriterion::nodeMetric`: mean of `μ − yᵢ·log μ` with
`μ = max(mean, 1e-12)` and `yᵢ = max(y[i], 1e-12)`. -/
noncomputable def poissonNodeMetric (labels : List ℝ) (indices : List ℕ) :
    ℝ :=
  if indices = [] then 0
  else
    let n : ℝ := indices.length
    let v := subsetVals labels indices
    let mu := max (v.sum / n) (1 / 10 ^ 12)
    (v.map (fun yv => mu - max yv (1 / 10 ^ 12) * Real.log mu)).sum / n

/-- C5 counterexample: `PoissonCriterion::nodeMetric` on the singleton
label set `y = [1]` returns `1 − 1·log 1 = 1`, not `0`, refuting "for
every singleton index set it returns exactly 0" for the Poisson member of
the criterion family. -/
theorem c5_counterexample_poisson_singleton :
    poissonNodeMetric [(1 : ℝ)] [0] ≠ 0 := by
  have h12 : ((1 : ℝ) / 10 ^ 12) ≤ 1 := by norm_num
  simp only [poissonNodeMetric, subsetVals, List.map_cons, List.map_nil,
    List.getD, List.sum_cons, List.sum_nil]
  norm_num [max_eq_left h12, Real.log_one]

/-- C5 amended.  For the five criteria other than Poisson — MSE, MAE,
Huber (threshold `δ ≥ 0`), Quantile (level `0 ≤ τ ≤ 1`), Log-Cosh —
`nodeMetric(labels, indices)` is nonnegative on every index set and
exactly `0` on every singleton; the Poisson criterion does not satisfy
this (its mean-deviance formula `μ − yᵢ·log μ` is `1` on `y = [1]` and
negative for large labels). -/
theorem c5_criteria_nonneg_singleton_zero (labels : List ℚ)
    (rlabels : List ℝ) (indices : List ℕ) (delta tau : ℚ) (j : ℕ)
    (hd : 0 ≤ delta) (ht0 : 0 ≤ tau) (ht1 : tau ≤ 1) :
    (0 ≤ mseNodeMetric labels indices ∧
     0 ≤ maeNodeMetric labels indices ∧
     0 ≤ huberNodeMetric delta labels indices ∧
     0 ≤ quantileNodeMetric tau labels indices ∧
     0 ≤ logCoshNodeMetric rlabels indices) ∧
    (mseNodeMetric labels [j] = 0 ∧
     maeNodeMetric labels [j] = 0 ∧
     huberNodeMetric delta labels [j] = 0 ∧
     quantileNodeMetric tau labels [j] = 0 ∧
     logCoshNodeMetric rlabels [j] = 0) := by
  constructor
  · refine ⟨?_, ?_, ?_, ?_, ?_⟩
    · unfold mseNodeMetric
      split
      · exact le_refl 0
      · exact le_max_left 0 _
    · unfold maeNodeMetric
      split
      · exact le_refl 0
      · refine div_nonneg (List.sum_nonneg ?_) (by positivity)
        intro x hx
        obtain ⟨v, -, rfl⟩ := List.mem_map.mp hx
        exact abs_nonneg _
    · unfold huberNodeMetric
      split
      · exact le_refl 0
      · refine div_nonneg (List.sum_nonneg ?_) (by positivity)
        intro x hx
        obtain ⟨v, -, rfl⟩ := List.mem_map.mp hx
        dsimp only
        split
        · exact div_nonneg (mul_self_nonneg _) (by norm_num)
        · rename_i hr
          push_neg at hr
          have h1 : 0 ≤ |v - (subsetVals labels indices).sum /
              (indices.length : ℚ)| - delta / 2 := by
            have := abs_nonneg (v - (subsetVals labels indices).sum /
              (indices.length : ℚ))
            linarith
          exact mul_nonneg hd h1
    · unfold quantileNodeMetric
      split
      · exact le_refl 0
      · refine div_nonneg (List.sum_nonneg ?_) (by positivity)
        intro x hx
        obtain ⟨v, -, rfl⟩ := List.mem_map.mp hx
        dsimp only
        split
        · rename_i hdlt
          nlinarith [hdlt, ht1]
        · rename_i hdge
          push_neg at hdge
          exact mul_nonneg ht0 hdge
    · unfold logCoshNodeMetric
      split
      · exact le_refl 0
      · refine div_nonneg (List.sum_nonneg ?_) (by positivity)
        intro x hx
        obtain ⟨v, -, rfl⟩ := List.mem_map.mp hx
        exact Real.log_nonneg (Real.one_le_cosh _)
  · refine ⟨?_, ?_, ?_, ?_, ?_⟩
    · simp only [mseNodeMetric, subsetVals, List.map_cons, List.map_nil,
        List.sum_cons, List.sum_nil, List.length_cons, List.length_nil]
      norm_num
    · simp only [maeNodeMetric, subsetMedian, subsetVals, List.map_cons,
        List.map_nil, sortBy, orderedInsertBy, List.length_cons,
        List.length_nil, List.sum_cons, List.sum_nil]
      norm_num
    · simp only [huberNodeMetric, subsetVals, List.map_cons, List.map_nil,
        List.sum_cons, List.sum_nil, List.length_cons, List.length_nil]
      norm_num
      intro h
      linarith
    · simp only [quantileNodeMetric, subsetVals, List.map_cons, List.map_nil,
        sortBy, orderedInsertBy, List.length_cons, List.length_nil,
        List.sum_cons, List.sum_nil]
      norm_num [ratTruncNat_zero]
    · simp only [logCoshNodeMetric, subsetVals, List.map_cons, List.map_nil,
        List.sum_cons, List.sum_nil, List.length_cons, List.length_nil]
      norm_num [Real.cosh_zero, Real.log_one]

/-- C5 witness: the amended statement discharged at `labels = [3]`,
`δ = 1`, `τ = 1/2`, singleton subset `[0]`. -/
theorem c5_criteria_nonneg_singleton_zero_witness :
    ((0 : ℚ) ≤ 1 ∧ (0 : ℚ) ≤ 1/2 ∧ (1 : ℚ)/2 ≤ 1) ∧
    mseNodeMetric [3] [0] = 0 ∧ huberNodeMetric 1 [3] [0] = 0 := by
  refine ⟨⟨by norm_num, by norm_num, by norm_num⟩, ?_, ?_⟩
  · exact (c5_criteria_nonneg_singleton_zero [3] [3] [0] 1 (1/2) 0
      (by norm_num) (by norm_num) (by norm_num)).2.1
  · exact (c5_criteria_nonneg_singleton_zero [3] [3] [0] 1 (1/2) 0
      (by norm_num) (by norm_num) (by norm_num)).2.2.2.1

/-! ## Split finders (`ExhaustiveSplitFinder.cpp`, `QuartileSplitFinder.cpp`)

The serial code paths are embedded (the parallel paths perform the same
computation with a critical-section reduction; the serial scan order is
one admissible schedule).  `std::sort` with the strict `<` comparator is
modelled by a stable merge sort on the `≤` comparator: both produce a
list nondecreasing in the sorted key, and ties (equal feature values)
cannot host a split boundary, so every admissible sort order yields the
same returned triple. -/

/-- The floating-point guard `EPS = 1e-12`. -/
def eps : ℚ := 1 / 10 ^ 12

/-- The MSE-reduction gain evaluated at a boundary with `leftCnt` samples
on the left, given left running statistics `ls`/`lq` and the node totals
(`ExhaustiveSplitFinder.cpp`, lines 154-172 of the serial path). -/
def boundaryGain (totalSum totalSumSq parentMSE : ℚ) (N : ℕ)
    (ls lq : ℚ) (leftCnt : ℕ) : ℚ :=
  let lc : ℚ := leftCnt
  let rc : ℚ := (N : ℚ) - lc
  let rightSum := totalSum - ls
  let rightSumSq := totalSumSq - lq
  let leftMean := ls / lc
  let rightMean := rightSum / rc
  let leftMSE := lq / lc - leftMean * leftMean
  let rightMSE := rightSumSq / rc - rightMean * rightMean
  parentMSE - (leftMSE * lc + rightMSE * rc) / (N : ℚ)

/-- The inner scan of `ExhaustiveSplitFinder::findBestSplit` over one
feature's sorted index list: accumulate left statistics, and at every
adjacent pair with `currentVal + EPS < nextVal` evaluate the boundary
gain, keeping the candidate only when it strictly exceeds the running
best gain. -/
def scanSplits (data : List ℚ) (rowLength f : ℕ) (labels : List ℚ)
    (totalSum totalSumSq parentMSE : ℚ) (N : ℕ) :
    List ℕ → ℚ → ℚ → ℕ → Int × ℚ × ℚ → Int × ℚ × ℚ
  | [], _, _, _, best => best
  | [_], _, _, _, best => best
  | a :: b :: rest, leftSum, leftSumSq, cnt, best =>
      let y := labelAt labels a
      let ls := leftSum + y
      let lq := leftSumSq + y * y
      let cv := featAt data rowLength a f
      let nv := featAt data rowLength b f
      let best' :=
        if cv + eps < nv then
          let gain := boundaryGain totalSum totalSumSq parentMSE N ls lq
            (cnt + 1)
          if best.2.2 < gain then ((f : Int), (cv + nv) / 2, gain) else best
        else best
      scanSplits data rowLength f labels totalSum totalSumSq parentMSE N
        (b :: rest) ls lq (cnt + 1) best'

/-- The gains of all candidate boundaries visited by `scanSplits` (same
traversal, recording instead of maximising). -/
def scanGains (data : List ℚ) (rowLength f : ℕ) (labels : List ℚ)
    (totalSum totalSumSq parentMSE : ℚ) (N : ℕ) :
    List ℕ → ℚ → ℚ → ℕ → List ℚ
  | [], _, _, _ => []
  | [_], _, _, _ => []
  | a :: b :: rest, leftSum, leftSumSq, cnt =>
      let y := labelAt labels a
      let ls := leftSum + y
      let lq := leftSumSq + y * y
      let cv := featAt data rowLength a f
      let nv := featAt data rowLength b f
      let tail := scanGains data rowLength f labels totalSum totalSumSq
        parentMSE N (b :: rest) ls lq (cnt + 1)
      if cv + eps < nv then
        boundaryGain totalSum totalSumSq parentMSE N ls lq (cnt + 1) :: tail
      else tail

/-- The per-feature sorted index list (`std::sort` by feature value). -/
def sortedByFeature (data : List ℚ) (rowLength f : ℕ)
    (indices : List ℕ) : List ℕ :=
  sortBy
    (fun a b => decide (featAt data rowLength a f ≤ featAt data rowLength b f))
    indices

/-- `ExhaustiveSplitFinder::findBestSplit` (serial path): guard `N < 2`
with `(-1, 0, 0)`, totals, then a feature loop with the boundary scan;
the `currentMetric`/`criterion` arguments of the C++ signature are
unused (the finder recomputes the parent MSE itself). -/
def exhaustiveFindBestSplit (data : List ℚ) (rowLength : ℕ)
    (labels : List ℚ) (indices : List ℕ) (currentMetric : ℚ) :
    Int × ℚ × ℚ :=
  if indices.length < 2 then (-1, 0, 0)
  else
    let N := indices.length
    let v := subsetVals labels indices
    let totalSum := v.sum
    let totalSumSq := (v.map (fun y => y * y)).sum
    let parentMean := totalSum / (N : ℚ)
    let parentMSE := totalSumSq / (N : ℚ) - parentMean * parentMean
    (List.range rowLength).foldl
      (fun best f =>
        scanSplits data rowLength f labels totalSum totalSumSq parentMSE N
          (sortedByFeature data rowLength f indices) 0 0 0 best)
      (-1, 0, 0)

/-- All candidate gains the exhaustive finder evaluates. -/
def exhaustiveCandidateGains (data : List ℚ) (rowLength : ℕ)
    (labels : List ℚ) (indices : List ℕ) : List ℚ :=
  let N := indices.length
  let v := subsetVals labels indices
  let totalSum := v.sum
  let totalSumSq := (v.map (fun y => y * y)).sum
  let parentMean := totalSum / (N : ℚ)
  let parentMSE := totalSumSq / (N : ℚ) - parentMean * parentMean
  (List.range rowLength).flatMap
    (fun f =>
      scanGains data rowLength f labels totalSum totalSumSq
        parentMSE N (sortedByFeature data rowLength f indices) 0 0 0)

/-- `QuartileSplitFinder::findBestSplit`.  `double bestGain` starts at
`-std::numeric_limits::infinity()`, modelled by `Option ℚ` with `none`
for `-∞` (every finite gain strictly exceeds it); the guard
`idx.size() < 4` returns the exact triple `(-1, 0.0, 0.0)`, i.e.
`(-1, 0, some 0)`.  The OpenMP feature loop with critical-section merge
is modelled in ascending feature order (one admissible schedule). -/
def quartileFindBestSplit (crit : List ℚ → List ℕ → ℚ) (data : List ℚ)
    (rowLength : ℕ) (labels : List ℚ) (indices : List ℕ)
    (parentMetric : ℚ) : Int × ℚ × Option ℚ :=
  if indices.length < 4 then (-1, 0, some 0)
  else
    let N := indices.length
    (List.range rowLength).foldl
      (fun best f =>
        let vals := indices.map (fun i => featAt data rowLength i f)
        let sorted := sortBy (fun a b => decide (a ≤ b)) vals
        let q1 := sorted.getD (ratTruncNat ((1/4 : ℚ) * ((N : ℚ) - 1))) 0
        let q2 := sorted.getD (ratTruncNat ((1/2 : ℚ) * ((N : ℚ) - 1))) 0
        let q3 := sorted.getD (ratTruncNat ((3/4 : ℚ) * ((N : ℚ) - 1))) 0
        let thrList := [q1] ++ (if eps < |q2 - q1| then [q2] else []) ++
          (if eps < |q3 - q2| ∧ eps < |q3 - q1| then [q3] else [])
        let localBest := thrList.foldl
          (fun (lb : ℚ × Option ℚ) thr =>
            let l := indices.filter
              (fun i => decide (featAt data rowLength i f ≤ thr))
            let r := indices.filter
              (fun i => !decide (featAt data rowLength i f ≤ thr))
            if l = [] ∨ r = [] then lb
            else
              let gain := parentMetric -
                (crit labels l * (l.length : ℚ) +
                 crit labels r * (r.length : ℚ)) / (N : ℚ)
              match lb.2 with
              | none => (thr, some gain)
              | some g => if g < gain then (thr, some gain) else lb)
          (0, none)
        match best.2.2, localBest.2 with
        | _, none => best
        | none, some lg => ((f : Int), localBest.1, some lg)
        | some bg, some lg =>
            if bg < lg then ((f : Int), localBest.1, some lg) else best)
      (-1, 0, none)

/-! ## Histogram subsystem (`PrecomputedHistograms.hpp/.cpp`)

Embedded for the histogram-based finders (`HistogramEWFinder`,
`HistogramEQFinder`, `AdaptiveEWFinder`): `precompute` over the full
dataset, `findBestSplitFast`, and `findBin`.  The thread-local
lazily-initialised manager singletons are modelled by computing the
precomputed histograms from `(X, rowLength, y)` at the call — the state
every call observes within one training run, since the first call
precomputes from `allIndices = iota(y.size())` and the boundaries are
fixed thereafter.  Timing/statistics bookkeeping, the informational
`featureIndex`/`binningType` tags, and log output are omitted.  The
adaptive bin-count rules (`ceil(log2 n)+1`, `ceil(2∛n)`, `ceil(√n)`,
Freedman–Diaconis) compute with floating `log2`/`cbrt`/`sqrt`; they are
taken as explicit function parameters, and every theorem below holds for
all values of those parameters. -/

/-- Replace the `n`-th element of a list (identity out of range). -/
def modifyNth {α : Type} (f : α → α) : List α → ℕ → List α
  | [], _ => []
  | a :: t, 0 => f a :: t
  | a :: t, n + 1 => a :: modifyNth f t n

/-- `*std::minmax_element(...).first` of a nonempty value list (`0` on
empty, which every caller guards). -/
def listMinD : List ℚ → ℚ
  | [] => 0
  | a :: t => t.foldl (fun x y => min x y) a

/-- `*std::minmax_element(...).second` (`0` on empty). -/
def listMaxD : List ℚ → ℚ
  | [] => 0
  | a :: t => t.foldl (fun x y => max x y) a

/-- `HistogramBin`: per-bin sample indices, label aggregates and value
range. -/
structure HistogramBin where
  sampleIndices : List ℕ
  sum : ℚ
  sumSq : ℚ
  count : ℕ
  binStart : ℚ
  binEnd : ℚ
  deriving DecidableEq, Repr

/-- A default-constructed `HistogramBin`. -/
def HistogramBin.init : HistogramBin := ⟨[], 0, 0, 0, 0, 0⟩

/-- `HistogramBin::addSample`. -/
def HistogramBin.addSample (b : HistogramBin) (idx : ℕ) (label : ℚ) :
    HistogramBin :=
  { b with sampleIndices := b.sampleIndices ++ [idx],
           sum := b.sum + label,
           sumSq := b.sumSq + label * label,
           count := b.count + 1 }

/-- `FeatureHistogram`: the bins, the boundary values, and the prefix
arrays filled by `updatePrefixArrays`. -/
structure FeatureHistogram where
  bins : List HistogramBin
  binBoundaries : List ℚ
  prefixSum : List ℚ
  prefixSumSq : List ℚ
  prefixCount : List ℕ
  deriving DecidableEq, Repr

/-- `FeatureHistogram::updatePrefixArrays`: `prefixX[i+1] = prefixX[i] +
bins[i].x`, with `prefixX[0] = 0`. -/
def FeatureHistogram.updatePrefixArrays (h : FeatureHistogram) :
    FeatureHistogram :=
  { h with
    prefixSum := h.bins.foldl (fun acc b => acc ++ [acc.getLastD 0 + b.sum]) [0],
    prefixSumSq :=
      h.bins.foldl (fun acc b => acc ++ [acc.getLastD 0 + b.sumSq]) [0],
    prefixCount :=
      h.bins.foldl (fun acc b => acc ++ [acc.getLastD 0 + b.count]) [0] }

/-- `PrecomputedHistograms::computeEqualWidthBins` followed by
`parallelBinConstruction` (serial assignment order; the OpenMP merge
permutes only the per-bin `sampleIndices` order, not the aggregates):
empty feature values leave `numBins` default bins and no boundaries; a
near-constant feature (range `< EPS`) gets one bin holding every sample;
otherwise `numBins` equal-width bins with boundaries
`minVal + i·binWidth`, each sample assigned to bin
`clamp(trunc((v − boundaries[0]) / binWidth), 0, numBins − 1)`. -/
def computeEqualWidthBins (numBins : ℕ) (featureValues : List ℚ)
    (labels : List ℚ) (indices : List ℕ) : FeatureHistogram :=
  if featureValues = [] then
    ⟨List.replicate numBins HistogramBin.init, [], [], [], []⟩
  else
    let minVal := listMinD featureValues
    let maxVal := listMaxD featureValues
    if |maxVal - minVal| < eps then
      let bin0 : HistogramBin := ⟨[], 0, 0, 0, minVal, maxVal⟩
      ⟨[indices.foldl (fun b i => b.addSample i (labelAt labels i)) bin0],
       [minVal, maxVal], [], [], []⟩
    else
      let binWidth := (maxVal - minVal) / (numBins : ℚ)
      let binBoundaries :=
        (List.range (numBins + 1)).map (fun i => minVal + (i : ℚ) * binWidth)
      let bins0 := (List.range numBins).map (fun i =>
        { HistogramBin.init with
            binStart := binBoundaries.getD i 0,
            binEnd := binBoundaries.getD (i + 1) 0 })
      if binBoundaries.length < 2 then ⟨bins0, binBoundaries, [], [], []⟩
      else
        let binWidth2 :=
          (binBoundaries.getLastD 0 - binBoundaries.headD 0) / (numBins : ℚ)
        let bins := (featureValues.zip indices).foldl
          (fun bins vi =>
            let binIdx := min
              (ratTruncNat ((vi.1 - binBoundaries.headD 0) / binWidth2))
              (numBins - 1)
            modifyNth (fun b => b.addSample vi.2 (labelAt labels vi.2)) bins
              binIdx)
          bins0
        ⟨bins, binBoundaries, [], [], []⟩

/-- `PrecomputedHistograms::computeEqualFrequencyBins`: sort
(value, index) pairs lexicographically (`std::sort` on `std::pair`),
then cut `numBins` runs of `size/numBins` samples (the first
`size % numBins` bins get one extra); boundaries collect the first value
and each bin's successor value.  Out-of-range pair reads (the C++ runs
past the array when `numBins` exceeds the sample count, undefined
behaviour) are modelled with default `(0, 0)`. -/
def computeEqualFrequencyBins (numBins : ℕ) (featureValues : List ℚ)
    (labels : List ℚ) (indices : List ℕ) : FeatureHistogram :=
  if featureValues = [] then ⟨[], [], [], [], []⟩
  else
    let pairs := sortBy
      (fun a b => decide (a.1 < b.1 ∨ (a.1 = b.1 ∧ a.2 ≤ b.2)))
      (featureValues.zip indices)
    let sz := pairs.length
    let samplesPerBin := sz / numBins
    let remainder := sz % numBins
    let step := (List.range numBins).foldl
      (fun (st : List HistogramBin × List ℚ × ℕ) binIdx =>
        let (bins, bnds, currentPos) := st
        let binSize := samplesPerBin + (if binIdx < remainder then 1 else 0)
        let startPos := currentPos
        let endPos := currentPos + binSize
        let binSamples := (pairs.drop startPos).take (min binSize (sz - startPos))
        let bin0 : HistogramBin :=
          { HistogramBin.init with binStart := (pairs.getD startPos (0, 0)).1 }
        let bin1 := binSamples.foldl
          (fun b p => b.addSample p.2 (labelAt labels p.2)) bin0
        if endPos < sz then
          (bins ++ [{ bin1 with binEnd := (pairs.getD (endPos - 1) (0, 0)).1 }],
           bnds ++ [(pairs.getD endPos (0, 0)).1], endPos)
        else
          (bins ++ [{ bin1 with binEnd := (pairs.getLastD (0, 0)).1 }],
           bnds ++ [(pairs.getLastD (0, 0)).1], endPos))
      ([], [(pairs.headD (0, 0)).1], 0)
    ⟨step.1, step.2.1, [], [], []⟩

/-- `PrecomputedHistograms::findBin`: `-1` on empty boundaries,
otherwise `clamp(upper_bound(boundaries, value) − 1, 0, bins − 1)`
(`upper_bound` on the nondecreasing boundary list is the count of
boundaries `≤ value`). -/
def findBin (hist : FeatureHistogram) (value : ℚ) : Int :=
  if hist.binBoundaries = [] then -1
  else
    let c := (hist.binBoundaries.filter (fun b => decide (b ≤ value))).length
    max 0 (min ((c : Int) - 1) ((hist.bins.length : Int) - 1))

/-- `PrecomputedHistograms::findBestSplitFast` (serial schedule of the
OpenMP feature loop; `candidateFeatures` empty, so all features are
checked): per feature, re-derive the node subset's per-bin
count/sum/sumSq by `findBin` bucketing, then evaluate every bin boundary
`b` (threshold `bins[b].binEnd`) with MSE gain; best gain starts at
`-∞` (`none`). -/
def findBestSplitFast (hists : List FeatureHistogram) (X : List ℚ)
    (D : ℕ) (y : List ℚ) (nodeIndices : List ℕ) (parentMetric : ℚ) :
    Int × ℚ × Option ℚ :=
  let N := nodeIndices.length
  (List.range hists.length).foldl
    (fun best f =>
      let hist := hists.getD f ⟨[], [], [], [], []⟩
      if hist.bins = [] then best
      else
        let nBins := hist.bins.length
        let stats := nodeIndices.foldl
          (fun (st : List (ℕ × ℚ × ℚ)) i =>
            let val := featAt X D i f
            let binIdx := findBin hist val
            if 0 ≤ binIdx ∧ binIdx < (nBins : Int) then
              modifyNth (fun c =>
                  (c.1 + 1, c.2.1 + labelAt y i,
                   c.2.2 + labelAt y i * labelAt y i))
                st binIdx.toNat
            else st)
          (List.replicate nBins ((0 : ℕ), (0 : ℚ), (0 : ℚ)))
        let scan := (List.range (nBins - 1)).foldl
          (fun (st : ℚ × ℚ × ℕ × Option (ℚ × ℚ)) b =>
            let (leftSum, leftSumSq, leftCount, lb) := st
            let sb := stats.getD b (0, 0, 0)
            let leftSum := leftSum + sb.2.1
            let leftSumSq := leftSumSq + sb.2.2
            let leftCount := leftCount + sb.1
            let rightCount := N - leftCount
            if leftCount = 0 ∨ rightCount = 0 then
              (leftSum, leftSumSq, leftCount, lb)
            else
              let rightSum := ((stats.drop (b + 1)).map (fun c => c.2.1)).sum
              let rightSumSq :=
                ((stats.drop (b + 1)).map (fun c => c.2.2)).sum
              let leftMSE := leftSumSq / (leftCount : ℚ) -
                (leftSum / (leftCount : ℚ)) * (leftSum / (leftCount : ℚ))
              let rightMSE := rightSumSq / (rightCount : ℚ) -
                (rightSum / (rightCount : ℚ)) * (rightSum / (rightCount : ℚ))
              let gain := parentMetric -
                (leftMSE * (leftCount : ℚ) + rightMSE * (rightCount : ℚ)) /
                  (N : ℚ)
              let thr := (hist.bins.getD b HistogramBin.init).binEnd
              match lb with
              | none => (leftSum, leftSumSq, leftCount, some (thr, gain))
              | some (_, g) =>
                  if g < gain then
                    (leftSum, leftSumSq, leftCount, some (thr, gain))
                  else (leftSum, leftSumSq, leftCount, lb))
          (0, 0, 0, none)
        match best.2.2, scan.2.2.2 with
        | _, none => best
        | none, some (thr, lg) => ((f : Int), thr, some lg)
        | some bg, some (thr, lg) =>
            if bg < lg then ((f : Int), thr, some lg) else best)
    (-1, 0, none)

/-- `PrecomputedHistograms::precompute` with `"equal_width"`: per
feature, extract the values and bin them, then fill the prefix
arrays. -/
def precomputeHistsEW (numBins : ℕ) (X : List ℚ) (D : ℕ) (y : List ℚ)
    (sampleIndices : List ℕ) : List FeatureHistogram :=
  (List.range D).map (fun f =>
    (computeEqualWidthBins numBins
      (sampleIndices.map (fun i => featAt X D i f)) y
      sampleIndices).updatePrefixArrays)

/-- `PrecomputedHistograms::precompute` with `"equal_frequency"`. -/
def precomputeHistsEQ (numBins : ℕ) (X : List ℚ) (D : ℕ) (y : List ℚ)
    (sampleIndices : List ℕ) : List FeatureHistogram :=
  (List.range D).map (fun f =>
    (computeEqualFrequencyBins numBins
      (sampleIndices.map (fun i => featAt X D i f)) y
      sampleIndices).updatePrefixArrays)

/-- `PrecomputedHistograms::precompute` with `"adaptive_ew"`
(`computeAdaptiveEWBins`, hard-coded `"sturges"` rule): the rule's
floating `ceil(log2 n)+1` is the parameter `ruleBins`; the exact
`clamp(·, 8, 128)` and the equal-width binning are concrete. -/
def precomputeHistsAdaptiveEW (ruleBins : ℕ → ℕ) (X : List ℚ) (D : ℕ)
    (y : List ℚ) (sampleIndices : List ℕ) : List FeatureHistogram :=
  (List.range D).map (fun f =>
    let featureValues := sampleIndices.map (fun i => featAt X D i f)
    let numBins := min 128 (max 8 (ruleBins featureValues.length))
    (computeEqualWidthBins numBins featureValues y
      sampleIndices).updatePrefixArrays)

/-- `HistogramEWFinder::findBestSplitTraditionalOptimized` (serial
version): per feature, min/max of the subset's values, skip
near-constant features, bucket the subset into `bins` equal-width bins
(`trunc`, decrement at the top edge), then evaluate every bin boundary
with running left statistics, threshold `vMin + (b + 0.5)·binW`; the
global best (gain initialised `-∞`) is updated directly across
features. -/
def histogramEWTraditional (bins : ℕ) (X : List ℚ) (D : ℕ) (y : List ℚ)
    (idx : List ℕ) (parentMetric : ℚ) : Int × ℚ × Option ℚ :=
  let N := idx.length
  (List.range D).foldl
    (fun best f =>
      let vals := idx.map (fun i => featAt X D i f)
      let vMin := listMinD vals
      let vMax := listMaxD vals
      if |vMax - vMin| < eps then best
      else
        let binW := (vMax - vMin) / (bins : ℚ)
        let hist := idx.foldl
          (fun (st : List (ℕ × ℚ × ℚ)) i =>
            let v := featAt X D i f
            let b0 := ratTruncNat ((v - vMin) / binW)
            let b := if b0 = bins then bins - 1 else b0
            modifyNth (fun c =>
                (c.1 + 1, c.2.1 + labelAt y i,
                 c.2.2 + labelAt y i * labelAt y i)) st b)
          (List.replicate bins ((0 : ℕ), (0 : ℚ), (0 : ℚ)))
        let scan := (List.range (bins - 1)).foldl
          (fun (st : ℚ × ℚ × ℕ × (Int × ℚ × Option ℚ)) b =>
            let (leftSum, leftSumSq, leftCnt, cur) := st
            let hb := hist.getD b (0, 0, 0)
            let leftSum := leftSum + hb.2.1
            let leftSumSq := leftSumSq + hb.2.2
            let leftCnt := leftCnt + hb.1
            let rightCnt := N - leftCnt
            if leftCnt = 0 ∨ rightCnt = 0 then
              (leftSum, leftSumSq, leftCnt, cur)
            else
              let rightSum := ((hist.drop (b + 1)).map (fun c => c.2.1)).sum
              let rightSumSq :=
                ((hist.drop (b + 1)).map (fun c => c.2.2)).sum
              let leftMSE := leftSumSq / (leftCnt : ℚ) -
                (leftSum / (leftCnt : ℚ)) * (leftSum / (leftCnt : ℚ))
              let rightMSE := rightSumSq / (rightCnt : ℚ) -
                (rightSum / (rightCnt : ℚ)) * (rightSum / (rightCnt : ℚ))
              let gain := parentMetric -
                (leftMSE * (leftCnt : ℚ) + rightMSE * (rightCnt : ℚ)) /
                  (N : ℚ)
              let thr := vMin + ((b : ℚ) + 1/2) * binW
              let better := match cur.2.2 with
                | none => true
                | some bg => decide (bg < gain)
              if better then
                (leftSum, leftSumSq, leftCnt, ((f : Int), thr, some gain))
              else (leftSum, leftSumSq, leftCnt, cur))
          (0, 0, 0, best)
        scan.2.2.2)
    (-1, 0, none)

/-- `HistogramEWFinder::findBestSplit`: guard `idx.size() < 2` with the
exact triple `(-1, 0.0, 0.0)`; otherwise consult the (first-call
precomputed, equal-width) histogram manager's `findBestSplitFast` and
fall back to the traditional method when it reports no feature. -/
def histogramEWFindBestSplit (bins : ℕ) (X : List ℚ) (D : ℕ)
    (y : List ℚ) (idx : List ℕ) (parentMetric : ℚ) :
    Int × ℚ × Option ℚ :=
  if idx.length < 2 then (-1, 0, some 0)
  else
    let hists := precomputeHistsEW bins X D y (List.range y.length)
    let fast := findBestSplitFast hists X D y idx parentMetric
    if fast.1 < 0 then histogramEWTraditional bins X D y idx parentMetric
    else fast

/-- `HistogramEQFinder::findBestSplitEqualFrequencyOptimized` (serial
version): `per = max(1, N / bins)` samples per bin; per feature, sort
the subset, collect the valid equal-frequency pivots (`pivot < N − 1`
and adjacent values at least `EPS` apart), and evaluate each by inline
MSE on the `take`/`drop` halves, threshold the midpoint of the pivot's
adjacent values; global best gain initialised `-∞`. -/
def histogramEQTraditional (bins : ℕ) (X : List ℚ) (D : ℕ) (y : List ℚ)
    (idx : List ℕ) (parentMetric : ℚ) : Int × ℚ × Option ℚ :=
  let N := idx.length
  let per := max 1 (N / bins)
  (List.range D).foldl
    (fun best f =>
      let sortedIdx := sortedByFeature X D f idx
      if sortedIdx.length < 2 then best
      else
        let pivotPoints := (List.range N).filter (fun pivot =>
          per ≤ pivot ∧ pivot % per = 0 ∧ pivot < N - 1 ∧
          eps ≤ |featAt X D (sortedIdx.getD pivot 0) f -
                  featAt X D (sortedIdx.getD (pivot - 1) 0) f|)
        pivotPoints.foldl
          (fun cur pivot =>
            let leftBuf := sortedIdx.take pivot
            let rightBuf := sortedIdx.drop pivot
            if leftBuf = [] ∨ rightBuf = [] then cur
            else
              let leftSum := (leftBuf.map (fun i => labelAt y i)).sum
              let leftSumSq :=
                (leftBuf.map (fun i => labelAt y i * labelAt y i)).sum
              let rightSum := (rightBuf.map (fun i => labelAt y i)).sum
              let rightSumSq :=
                (rightBuf.map (fun i => labelAt y i * labelAt y i)).sum
              let leftMSE := leftSumSq / (leftBuf.length : ℚ) -
                (leftSum / (leftBuf.length : ℚ)) *
                  (leftSum / (leftBuf.length : ℚ))
              let rightMSE := rightSumSq / (rightBuf.length : ℚ) -
                (rightSum / (rightBuf.length : ℚ)) *
                  (rightSum / (rightBuf.length : ℚ))
              let gain := parentMetric -
                (leftMSE * (leftBuf.length : ℚ) +
                 rightMSE * (rightBuf.length : ℚ)) / (N : ℚ)
              let better := match cur.2.2 with
                | none => true
                | some bg => decide (bg < gain)
              if better then
                let vL := featAt X D (sortedIdx.getD (pivot - 1) 0) f
                let vR := featAt X D (sortedIdx.getD pivot 0) f
                ((f : Int), (vL + vR) / 2, some gain)
              else cur)
          best)
    (-1, 0, none)

/-- `HistogramEQFinder::findBestSplit`: guard `N < 2` with
`(-1, 0.0, 0.0)`, then the (equal-frequency precomputed) fast path with
the traditional equal-frequency fallback. -/
def histogramEQFindBestSplit (bins : ℕ) (X : List ℚ) (D : ℕ)
    (y : List ℚ) (idx : List ℕ) (parentMetric : ℚ) :
    Int × ℚ × Option ℚ :=
  if idx.length < 2 then (-1, 0, some 0)
  else
    let hists := precomputeHistsEQ bins X D y (List.range y.length)
    let fast := findBestSplitFast hists X D y idx parentMetric
    if fast.1 < 0 then histogramEQTraditional bins X D y idx parentMetric
    else fast

/-- `AdaptiveEWFinder::findBestSplitAdaptiveEWOptimized` (serial
version).  `binRule` is `calculateOptimalBinsFast` (floating
Sturges/Rice/sqrt/Freedman–Diaconis arithmetic, abstracted); per
feature: skip if fewer than 2 bins or a near-constant value range,
bucket into `optimalBins` equal-width buckets, evaluate each boundary
`b` with left = buckets `0..b` and right = the remaining buckets,
threshold `vMin + binW·(b+1)`.  The C++ `break` when the right side
empties is modelled by the skip; every later iteration would be a no-op
anyway (the right count can never grow back). -/
def adaptiveEWOptimized (binRule : List ℚ → ℕ) (X : List ℚ) (D : ℕ)
    (y : List ℚ) (idx : List ℕ) (parentMetric : ℚ) :
    Int × ℚ × Option ℚ :=
  let N := idx.length
  (List.range D).foldl
    (fun best f =>
      let values := idx.map (fun i => featAt X D i f)
      if values = [] then best
      else
        let optimalBins := binRule values
        if optimalBins < 2 then best
        else
          let vMin := listMinD values
          let vMax := listMaxD values
          if |vMax - vMin| < eps then best
          else
            let binW := (vMax - vMin) / (optimalBins : ℚ)
            let buckets := idx.foldl
              (fun (bk : List (List ℕ)) i =>
                let val := featAt X D i f
                let b0 := ratTruncNat ((val - vMin) / binW)
                let b := if b0 = optimalBins then optimalBins - 1 else b0
                modifyNth (fun l => l ++ [i]) bk b)
              (List.replicate optimalBins ([] : List ℕ))
            let scan := (List.range (optimalBins - 1)).foldl
              (fun (st : List ℕ × (Int × ℚ × Option ℚ)) b =>
                let (leftBuf, cur) := st
                let leftBuf := leftBuf ++ buckets.getD b []
                if leftBuf = [] then (leftBuf, cur)
                else
                  let leftN := leftBuf.length
                  let rightN := N - leftN
                  if rightN = 0 then (leftBuf, cur)
                  else
                    let leftSum := (leftBuf.map (fun i => labelAt y i)).sum
                    let leftSumSq :=
                      (leftBuf.map (fun i => labelAt y i * labelAt y i)).sum
                    let rightSum := ((buckets.drop (b + 1)).map
                      (fun bucket =>
                        (bucket.map (fun i => labelAt y i)).sum)).sum
                    let rightSumSq := ((buckets.drop (b + 1)).map
                      (fun bucket =>
                        (bucket.map (fun i =>
                          labelAt y i * labelAt y i)).sum)).sum
                    let leftMSE := leftSumSq / (leftN : ℚ) -
                      (leftSum / (leftN : ℚ)) * (leftSum / (leftN : ℚ))
                    let rightMSE := rightSumSq / (rightN : ℚ) -
                      (rightSum / (rightN : ℚ)) * (rightSum / (rightN : ℚ))
                    let gain := parentMetric -
                      (leftMSE * (leftN : ℚ) + rightMSE * (rightN : ℚ)) /
                        (N : ℚ)
                    let better := match cur.2.2 with
                      | none => true
                      | some bg => decide (bg < gain)
                    if better then
                      (leftBuf,
                       ((f : Int), vMin + binW * ((b : ℚ) + 1), some gain))
                    else (leftBuf, cur))
              ([], best)
            scan.2)
    (-1, 0, none)

/-- `AdaptiveEWFinder::findBestSplit`: guard `N < 2` with
`(-1, 0.0, 0.0)`, then the fast path over `"adaptive_ew"` precomputed
histograms (`ruleBins` = the Sturges bin-count rule of
`computeAdaptiveEWBins`) with the optimized adaptive fallback. -/
def adaptiveEWFindBestSplit (ruleBins : ℕ → ℕ) (binRule : List ℚ → ℕ)
    (X : List ℚ) (D : ℕ) (y : List ℚ) (idx : List ℕ)
    (parentMetric : ℚ) : Int × ℚ × Option ℚ :=
  if idx.length < 2 then (-1, 0, some 0)
  else
    let hists := precomputeHistsAdaptiveEW ruleBins X D y
      (List.range y.length)
    let fast := findBestSplitFast hists X D y idx parentMetric
    if fast.1 < 0 then adaptiveEWOptimized binRule X D y idx parentMetric
    else fast

/-- `AdaptiveEQFinder::findBestSplit`.  `freqParams` is
`calculateOptimalFrequencyParams` (floating coefficient-of-variation and
square-root arithmetic, abstracted; only the per-bin component is used
afterwards, as in the source).  Guard `N < 2·minSamplesPerBin` with
`(-1, 0.0, 0.0)`; per feature (serial schedule of the OpenMP loop):
skip when `N < 2·perBin`, sort the subset, evaluate every
equal-frequency pivot `perBin, 2·perBin, …, ≤ N − perBin` whose adjacent
values differ by at least `EPS` and whose halves both hold at least
`minSamplesPerBin` samples, scoring with the configured criterion;
local best gain initialised `-∞`, merged across features. -/
def adaptiveEQFindBestSplit (freqParams : List ℚ → ℕ × ℕ)
    (crit : List ℚ → List ℕ → ℚ) (minSamplesPerBin : ℕ) (X : List ℚ)
    (D : ℕ) (y : List ℚ) (idx : List ℕ) (parentMetric : ℚ) :
    Int × ℚ × Option ℚ :=
  let N := idx.length
  if N < 2 * minSamplesPerBin then (-1, 0, some 0)
  else
    (List.range D).foldl
      (fun best f =>
        let values := idx.map (fun i => featAt X D i f)
        let perBin := (freqParams values).2
        if N < 2 * perBin then best
        else
          let sortedIdx := sortedByFeature X D f idx
          let pivots := (List.range (N + 1)).filter (fun p =>
            perBin ≤ p ∧ p ≤ N - perBin ∧ p % perBin = 0)
          let localBest := pivots.foldl
            (fun (lb : ℚ × Option ℚ) pivot =>
              let vL := featAt X D (sortedIdx.getD (pivot - 1) 0) f
              let vR := featAt X D (sortedIdx.getD pivot 0) f
              if |vR - vL| < eps then lb
              else
                let leftBuf := sortedIdx.take pivot
                let rightBuf := sortedIdx.drop pivot
                if leftBuf.length < minSamplesPerBin ∨
                    rightBuf.length < minSamplesPerBin then lb
                else
                  let mL := crit y leftBuf
                  let mR := crit y rightBuf
                  let gain := parentMetric -
                    (mL * (leftBuf.length : ℚ) +
                     mR * (rightBuf.length : ℚ)) / (N : ℚ)
                  match lb.2 with
                  | none => ((vL + vR) / 2, some gain)
                  | some g =>
                      if g < gain then ((vL + vR) / 2, some gain) else lb)
            (0, none)
          match best.2.2, localBest.2 with
          | _, none => best
          | none, some lg => ((f : Int), localBest.1, some lg)
          | some bg, some lg =>
              if bg < lg then ((f : Int), localBest.1, some lg) else best)
      (-1, 0, none)

/-- One feature of `RandomSplitFinder::findBestSplit`
(`processFeature`, serial path `tid = 0`): sort (value, label) pairs by
value, skip a near-constant range, then `k` random-threshold trials
`thr = vMin + u_r·(vMax − vMin)`; `upper_bound` on the sorted values
gives the left count, left/right statistics come from the prefix sums
(= sums over the first `pos` sorted pairs), local best gain initialised
`-∞`.  `draws` is the `uniform_real_distribution(0,1)` stream of the
thread-local `mt19937`; the serial path reseeds it identically for every
feature, so one stream shared across features is exact.  Returns the
feature's recorded `(threshold, gain)`, if any. -/
def randomProcessFeature (k : ℕ) (draws : ℕ → ℚ) (X : List ℚ) (D : ℕ)
    (y : List ℚ) (idx : List ℕ) (parentMetric : ℚ) (f : ℕ) :
    Option (ℚ × ℚ) :=
  let nIdx := idx.length
  let vals := sortBy (fun a b => decide (a.1 ≤ b.1))
    (idx.map (fun i => (featAt X D i f, labelAt y i)))
  let sortedX := vals.map (fun p => p.1)
  let vMin := sortedX.headD 0
  let vMax := sortedX.getLastD 0
  if vMax - vMin < eps then none
  else
    (List.range k).foldl
      (fun (lb : Option (ℚ × ℚ)) r =>
        let thr := vMin + draws r * (vMax - vMin)
        let pos := (sortedX.filter (fun v => decide (v ≤ thr))).length
        if pos = 0 ∨ pos = nIdx then lb
        else
          let sumL := ((vals.take pos).map (fun p => p.2)).sum
          let sumSqL := ((vals.take pos).map (fun p => p.2 * p.2)).sum
          let mL := sumL / (pos : ℚ)
          let varL := sumSqL / (pos : ℚ) - mL * mL
          let sumTotal := (vals.map (fun p => p.2)).sum
          let sumSqTotal := (vals.map (fun p => p.2 * p.2)).sum
          let sumR := sumTotal - sumL
          let sumSqR := sumSqTotal - sumSqL
          let nR : ℚ := ((nIdx - pos : ℕ) : ℚ)
          let mR := sumR / nR
          let varR := sumSqR / nR - mR * mR
          let gain := parentMetric -
            (varL * (pos : ℚ) + varR * nR) / (nIdx : ℚ)
          match lb with
          | none => some (thr, gain)
          | some (_, g) => if g < gain then some (thr, gain) else lb)
      none

/-- `RandomSplitFinder::findBestSplit` (serial path): guard `nIdx < 2`
with the exact triple `(-1, 0.0, 0.0)`; per feature, adopt the
feature's recorded best into the thread-best when it strictly exceeds
it (`-∞` initialisation), then the final thread reduction returns the
thread best. -/
def randomFindBestSplit (k : ℕ) (draws : ℕ → ℚ) (X : List ℚ) (D : ℕ)
    (y : List ℚ) (idx : List ℕ) (parentMetric : ℚ) :
    Int × ℚ × Option ℚ :=
  if idx.length < 2 then (-1, 0, some 0)
  else
    (List.range D).foldl
      (fun best f =>
        match randomProcessFeature k draws X D y idx parentMetric f with
        | none => best
        | some (thr, g) =>
            match best.2.2 with
            | none => ((f : Int), thr, some g)
            | some bg => if bg < g then ((f : Int), thr, some g) else best)
      (-1, 0, none)

theorem foldl_fixed_point {α β : Type _} (f : β → α → β) (b : β) :
    ∀ l : List α, (∀ a ∈ l, f b a = b) → l.foldl f b = b := by
  intro l
  induction l with
  | nil => intro _; rfl
  | cons a rest ih =>
      intro h
      rw [List.foldl_cons, h a (List.mem_cons_self a rest)]
      exact ih (fun x hx => h x (List.mem_cons_of_mem a hx))

theorem foldl_invariant {α β : Type _} (P : β → Prop) (f : β → α → β) :
    ∀ (l : List α) (b : β), P b → (∀ a ∈ l, ∀ b', P b' → P (f b' a)) →
      P (l.foldl f b) := by
  intro l
  induction l with
  | nil => intro b hb _; exact hb
  | cons a rest ih =>
      intro b hb h
      rw [List.foldl_cons]
      exact ih (f b a) (h a (List.mem_cons_self a rest) b hb)
        (fun x hx => h x (List.mem_cons_of_mem a hx))

/-- If every candidate gain of one feature scan is non-positive and the
running best gain is nonnegative, the scan leaves the best unchanged. -/
theorem scanSplits_of_gains_nonpos (data : List ℚ) (rowLength f : ℕ)
    (labels : List ℚ) (ts tq pm : ℚ) (N : ℕ) :
    ∀ (l : List ℕ) (ls lq : ℚ) (cnt : ℕ) (best : Int × ℚ × ℚ),
      0 ≤ best.2.2 →
      (∀ g ∈ scanGains data rowLength f labels ts tq pm N l ls lq cnt,
        g ≤ 0) →
      scanSplits data rowLength f labels ts tq pm N l ls lq cnt best = best
  | [], _, _, _, _, _, _ => rfl
  | [_], _, _, _, _, _, _ => rfl
  | a :: b :: rest, ls0, lq0, cnt, best, hb, hg => by
      by_cases hc :
          featAt data rowLength a f + eps < featAt data rowLength b f
      · have hcons : scanGains data rowLength f labels ts tq pm N
            (a :: b :: rest) ls0 lq0 cnt =
            boundaryGain ts tq pm N (ls0 + labelAt labels a)
              (lq0 + labelAt labels a * labelAt labels a) (cnt + 1) ::
            scanGains data rowLength f labels ts tq pm N (b :: rest)
              (ls0 + labelAt labels a)
              (lq0 + labelAt labels a * labelAt labels a) (cnt + 1) := by
          simp only [scanGains, if_pos hc]
        have hmem : boundaryGain ts tq pm N (ls0 + labelAt labels a)
            (lq0 + labelAt labels a * labelAt labels a) (cnt + 1) ≤ 0 := by
          apply hg
          rw [hcons]
          exact List.mem_cons_self _ _
        have htail : ∀ g ∈ scanGains data rowLength f labels ts tq pm N
            (b :: rest) (ls0 + labelAt labels a)
            (lq0 + labelAt labels a * labelAt labels a) (cnt + 1), g ≤ 0 := by
          intro g hgm
          apply hg
          rw [hcons]
          exact List.mem_cons_of_mem _ hgm
        have hnot : ¬ best.2.2 <
            boundaryGain ts tq pm N (ls0 + labelAt labels a)
              (lq0 + labelAt labels a * labelAt labels a) (cnt + 1) :=
          not_lt.mpr (le_trans hmem hb)
        simp only [scanSplits, if_pos hc, if_neg hnot]
        exact scanSplits_of_gains_nonpos data rowLength f labels ts tq pm N
          (b :: rest) _ _ (cnt + 1) best hb htail
      · have hcons : scanGains data rowLength f labels ts tq pm N
            (a :: b :: rest) ls0 lq0 cnt =
            scanGains data rowLength f labels ts tq pm N (b :: rest)
              (ls0 + labelAt labels a)
              (lq0 + labelAt labels a * labelAt labels a) (cnt + 1) := by
          simp only [scanGains, if_neg hc]
        have htail : ∀ g ∈ scanGains data rowLength f labels ts tq pm N
            (b :: rest) (ls0 + labelAt labels a)
            (lq0 + labelAt labels a * labelAt labels a) (cnt + 1), g ≤ 0 := by
          intro g hgm
          apply hg
          rw [hcons]
          exact hgm
        simp only [scanSplits, if_neg hc]
        exact scanSplits_of_gains_nonpos data rowLength f labels ts tq pm N
          (b :: rest) _ _ (cnt + 1) best hb htail

/-- The scan preserves "best gain nonnegative, and strictly positive as
soon as a real feature index is recorded". -/
theorem scanSplits_invariant (data : List ℚ) (rowLength f : ℕ)
    (labels : List ℚ) (ts tq pm : ℚ) (N : ℕ) :
    ∀ (l : List ℕ) (ls lq : ℚ) (cnt : ℕ) (best : Int × ℚ × ℚ),
      0 ≤ best.2.2 ∧ (best.1 ≠ -1 → 0 < best.2.2) →
      0 ≤ (scanSplits data rowLength f labels ts tq pm N l ls lq cnt
            best).2.2 ∧
      ((scanSplits data rowLength f labels ts tq pm N l ls lq cnt
            best).1 ≠ -1 →
        0 < (scanSplits data rowLength f labels ts tq pm N l ls lq cnt
            best).2.2)
  | [], _, _, _, _, hb => hb
  | [_], _, _, _, _, hb => hb
  | a :: b :: rest, ls0, lq0, cnt, best, hb => by
      by_cases hc :
          featAt data rowLength a f + eps < featAt data rowLength b f
      · by_cases hup : best.2.2 <
            boundaryGain ts tq pm N (ls0 + labelAt labels a)
              (lq0 + labelAt labels a * labelAt labels a) (cnt + 1)
        · simp only [scanSplits, if_pos hc, if_pos hup]
          exact scanSplits_invariant data rowLength f labels ts tq pm N
            (b :: rest) _ _ (cnt + 1) _
            ⟨le_of_lt (lt_of_le_of_lt hb.1 hup),
             fun _ => lt_of_le_of_lt hb.1 hup⟩
        · simp only [scanSplits, if_pos hc, if_neg hup]
          exact scanSplits_invariant data rowLength f labels ts tq pm N
            (b :: rest) _ _ (cnt + 1) best hb
      · simp only [scanSplits, if_neg hc]
        exact scanSplits_invariant data rowLength f labels ts tq pm N
          (b :: rest) _ _ (cnt + 1) best hb

attribute [local semireducible] Rat.add Rat.mul Rat.inv Rat.sub

/-- C4 counterexample: `QuartileSplitFinder::findBestSplit` initialises
its best gain to `-∞` and records any evaluated candidate that exceeds
it, so on four samples with identical labels (every candidate split has
gain exactly `0`, and none has positive gain) it returns feature index
`0` with gain `0` — not `featureIndex = -1` as the claim requires.  The
parent metric `0` passed here is exactly
`mseNodeMetric [0,0,0,0] [0,1,2,3]`. -/
theorem c4_counterexample_quartile_nonpositive_gain :
    quartileFindBestSplit mseNodeMetric [1, 2, 3, 4] 1 [0, 0, 0, 0]
        [0, 1, 2, 3] 0 = (0, 1, some 0) ∧
    ((0 : Int) ≠ -1) := by
  constructor
  · decide
  · decide

/-- C4 amended.  Family-wide small-subset guard: every finder's
`findBestSplit` returns exactly `(-1, 0.0, 0.0)` when the index subset
is smaller than its sample requirement — exhaustive, histogram
equal-width/equal-frequency, adaptive equal-width and random below 2
samples, quartile below 4, adaptive equal-frequency below
`2·minSamplesPerBin` — for every bin count, bin-count rule,
frequency-parameter rule, criterion and random-draw stream.  The
exhaustive finder moreover returns `(-1, 0, 0)` whenever every candidate
split has non-positive gain, and any real feature index it returns
carries strictly positive gain.  That stronger guarantee is exclusive to
it: the other finders initialise their best gain to `-∞` and record any
evaluated candidate, and the quartile counterexample plus the concrete
random-finder run in the last conjunct (two equal-label samples, one
threshold draw) each return feature index `0` with gain `0`. -/
theorem c4_finder_guards (data : List ℚ) (rowLength : ℕ) (labels : List ℚ)
    (indices : List ℕ) (cm pm : ℚ) (crit : List ℚ → List ℕ → ℚ)
    (bins mspb k : ℕ) (ruleBins : ℕ → ℕ) (binRule : List ℚ → ℕ)
    (freqParams : List ℚ → ℕ × ℕ) (draws : ℕ → ℚ) :
    (indices.length < 2 →
      exhaustiveFindBestSplit data rowLength labels indices cm =
        (-1, 0, 0)) ∧
    ((∀ g ∈ exhaustiveCandidateGains data rowLength labels indices, g ≤ 0) →
      exhaustiveFindBestSplit data rowLength labels indices cm =
        (-1, 0, 0)) ∧
    ((exhaustiveFindBestSplit data rowLength labels indices cm).1 ≠ -1 →
      0 < (exhaustiveFindBestSplit data rowLength labels indices cm).2.2) ∧
    (indices.length < 4 →
      quartileFindBestSplit crit data rowLength labels indices pm =
        (-1, 0, some 0)) ∧
    (indices.length < 2 →
      histogramEWFindBestSplit bins data rowLength labels indices pm =
        (-1, 0, some 0)) ∧
    (indices.length < 2 →
      histogramEQFindBestSplit bins data rowLength labels indices pm =
        (-1, 0, some 0)) ∧
    (indices.length < 2 →
      adaptiveEWFindBestSplit ruleBins binRule data rowLength labels
        indices pm = (-1, 0, some 0)) ∧
    (indices.length < 2 * mspb →
      adaptiveEQFindBestSplit freqParams crit mspb data rowLength labels
        indices pm = (-1, 0, some 0)) ∧
    (indices.length < 2 →
      randomFindBestSplit k draws data rowLength labels indices pm =
        (-1, 0, some 0)) ∧
    (randomFindBestSplit 1 (fun r => 1/2) [1, 2] 1 [0, 0] [0, 1] 0 =
      (0, 3/2, some 0)) := by
  refine ⟨?_, ?_, ?_, ?_, ?_, ?_, ?_, ?_, ?_, ?_⟩
  · intro h
    simp only [exhaustiveFindBestSplit, if_pos h]
  · intro h
    by_cases h2 : indices.length < 2
    · simp only [exhaustiveFindBestSplit, if_pos h2]
    · simp only [exhaustiveFindBestSplit, if_neg h2]
      apply foldl_fixed_point
      intro f hf
      apply scanSplits_of_gains_nonpos
      · exact le_refl 0
      · intro g hg
        apply h
        simp only [exhaustiveCandidateGains]
        exact List.mem_flatMap.mpr ⟨f, hf, hg⟩
  · intro hne
    by_cases h2 : indices.length < 2
    · exfalso
      apply hne
      simp only [exhaustiveFindBestSplit, if_pos h2]
    · have hP :
          0 ≤ (exhaustiveFindBestSplit data rowLength labels indices
              cm).2.2 ∧
          ((exhaustiveFindBestSplit data rowLength labels indices cm).1 ≠ -1 →
            0 < (exhaustiveFindBestSplit data rowLength labels indices
              cm).2.2) := by
        simp only [exhaustiveFindBestSplit, if_neg h2]
        apply foldl_invariant
          (fun best : Int × ℚ × ℚ => 0 ≤ best.2.2 ∧ (best.1 ≠ -1 → 0 < best.2.2))
        · refine ⟨le_refl 0, ?_⟩
          intro hcon
          exact absurd rfl hcon
        · intro f hf b' hb'
          exact scanSplits_invariant data rowLength f labels _ _ _ _ _ 0 0 0
            b' hb'
      exact hP.2 hne
  · intro h
    simp only [quartileFindBestSplit, if_pos h]
  · intro h
    simp only [histogramEWFindBestSplit, if_pos h]
  · intro h
    simp only [histogramEQFindBestSplit, if_pos h]
  · intro h
    simp only [adaptiveEWFindBestSplit, if_pos h]
  · intro h
    simp only [adaptiveEQFindBestSplit, if_pos h]
  · intro h
    simp only [randomFindBestSplit, if_pos h]
  · decide

/-- C4 witness: the guards discharged at concrete inputs — a singleton
subset for the exhaustive and random finders and a three-element subset
for the quartile finder. -/
theorem c4_finder_guards_witness :
    (([7] : List ℕ).length < 2 ∧
      exhaustiveFindBestSplit [5, 6] 1 [1, 2] [7] 3 = (-1, 0, 0)) ∧
    (([0, 1, 2] : List ℕ).length < 4 ∧
      quartileFindBestSplit mseNodeMetric [5, 6, 7] 1 [1, 2, 3] [0, 1, 2] 3 =
        (-1, 0, some 0)) ∧
    (([7] : List ℕ).length < 2 ∧
      randomFindBestSplit 10 (fun r => 1/2) [5, 6] 1 [1, 2] [7] 3 =
        (-1, 0, some 0)) := by
  refine ⟨⟨by decide, ?_⟩, ⟨by decide, ?_⟩, ⟨by decide, ?_⟩⟩
  · exact (c4_finder_guards [5, 6] 1 [1, 2] [7] 3 3 mseNodeMetric 4 2 10
      (fun n => n) (fun v => 4) (fun v => (4, 2)) (fun r => 1/2)).1
      (by decide)
  · exact (c4_finder_guards [5, 6, 7] 1 [1, 2, 3] [0, 1, 2] 3 3
      mseNodeMetric 4 2 10 (fun n => n) (fun v => 4) (fun v => (4, 2))
      (fun r => 1/2)).2.2.2.1 (by decide)
  · exact (c4_finder_guards [5, 6] 1 [1, 2] [7] 3 3 mseNodeMetric 4 2 10
      (fun n => n) (fun v => 4) (fun v => (4, 2))
      (fun r => 1/2)).2.2.2.2.2.2.2.2.1 (by decide)

/-! ## Growth engine (`SingleTreeTrainer.cpp`)

`processTask` (task-queue path) and `splitNodeOptimized` (recursive
path) run the identical per-node decision sequence — empty guard, cached
metric/samples, mean, stopping rules, finder call, `bestFeat < 0 ∨
bestGain ≤ 0` check, `MinGainPrePruner` check, partition, child-size
check — and differ only in how child subsets are scheduled (queue push
versus direct recursion), so one recursive function embeds the node
logic of both paths; the partition contents are those of C1. -/

/-- The arithmetic mean of the subset's labels (`sum / indices.size()`;
`0` on the empty subset since `0 / 0 = 0` in `ℚ`). -/
def meanOf (labels : List ℚ) (indices : List ℕ) : ℚ :=
  (subsetVals labels indices).sum / (indices.length : ℚ)

/-- The `MinGainPrePruner` consultation in both growth paths: when the
configured pruner is the min-gain pre-pruner (`dynamic_cast` succeeds,
modelled by `some minGain`), a proposed gain below `minGain` forces a
leaf; any other pruner imposes nothing. -/
def belowMinGain (minGainOpt : Option ℚ) (g : ℚ) : Bool :=
  match minGainOpt with
  | some mg => decide (g < mg)
  | none => false

/-- The per-node growth of `SingleTreeTrainer::processTask` /
`splitNodeOptimized`, parametric in the split finder and criterion.  The
finder receives `(data, rowLength, labels, indices, node->metric)` and
returns `(featureIndex, threshold, gain)`.

Recursion is driven structurally by `remaining = maxDepth - depth`; on
natural numbers `remaining = 0` holds exactly when `depth >= maxDepth`,
i.e. this is the first stopping rule of the C++ check `depth >=
maxDepth_ || indices.size() < 2 * minSamplesLeaf_ || indices.size() <
2`, and each child call decrements `remaining` as it increments the
depth. -/
def buildTreeAux
    (finder : List ℚ → ℕ → List ℚ → List ℕ → ℚ → Int × ℚ × ℚ)
    (crit : List ℚ → List ℕ → ℚ) (minGainOpt : Option ℚ)
    (minSamplesLeaf : ℕ) (data : List ℚ) (rowLength : ℕ)
    (labels : List ℚ) : ℕ → List ℕ → Node
  | remaining, indices =>
    if indices = [] then Node.makeLeaf 0 0 0 0
    else
      let metric := crit labels indices
      let samples := indices.length
      let nodePrediction := meanOf labels indices
      match remaining with
      | 0 => Node.makeLeaf samples metric nodePrediction nodePrediction
      | r + 1 =>
        if samples < 2 * minSamplesLeaf ∨ samples < 2 then
          Node.makeLeaf samples metric nodePrediction nodePrediction
        else
          let res := finder data rowLength labels indices metric
          if res.1 < 0 ∨ res.2.2 ≤ 0 then
            Node.makeLeaf samples metric nodePrediction nodePrediction
          else if belowMinGain minGainOpt res.2.2 then
            Node.makeLeaf samples metric nodePrediction nodePrediction
          else
            let parts :=
              stdPartition data rowLength res.1.toNat res.2.1 indices
            if parts.1.length < minSamplesLeaf ∨
                parts.2.length < minSamplesLeaf then
              Node.makeLeaf samples metric nodePrediction nodePrediction
            else
              Node.internal samples metric res.1.toNat res.2.1
                (buildTreeAux finder crit minGainOpt minSamplesLeaf data
                  rowLength labels r parts.1)
                (buildTreeAux finder crit minGainOpt minSamplesLeaf data
                  rowLength labels r parts.2)

/-- Growth of one node at `depth` under the `maxDepth` limit. -/
def buildTree
    (finder : List ℚ → ℕ → List ℚ → List ℕ → ℚ → Int × ℚ × ℚ)
    (crit : List ℚ → List ℕ → ℚ) (minGainOpt : Option ℚ)
    (maxDepth minSamplesLeaf : ℕ) (data : List ℚ) (rowLength : ℕ)
    (labels : List ℚ) (indices : List ℕ) (depth : ℕ) : Node :=
  buildTreeAux finder crit minGainOpt minSamplesLeaf data rowLength labels
    (maxDepth - depth) indices

/-- `SingleTreeTrainer::train` before the pruning phase: root indices
`0, 1, ..., labels.size() - 1` (`std::iota`), grown from depth `0`.
There is no validation of the inputs: empty or mismatched arrays are
passed straight to the growth. -/
def trainGrow
    (finder : List ℚ → ℕ → List ℚ → List ℕ → ℚ → Int × ℚ × ℚ)
    (crit : List ℚ → List ℕ → ℚ) (minGainOpt : Option ℚ)
    (maxDepth minSamplesLeaf : ℕ) (data : List ℚ) (rowLength : ℕ)
    (labels : List ℚ) : Node :=
  buildTree finder crit minGainOpt maxDepth minSamplesLeaf data rowLength
    labels (List.range labels.length) 0

/-- `SingleTreeTrainer::predict` for row `i` of a row-major matrix:
descend by `sample[featureIndex] <= threshold`. -/
def predictRow (t : Node) (X : List ℚ) (rowLength i : ℕ) : ℚ :=
  match t with
  | .leaf _ _ p _ => p
  | .internal _ _ fi thr l r =>
      if featAt X rowLength i fi ≤ thr then predictRow l X rowLength i
      else predictRow r X rowLength i

/-- `SingleTreeTrainer::evaluate`, MSE output: mean of squared
prediction errors over the rows. -/
def evaluateMSE (t : Node) (X : List ℚ) (rowLength : ℕ) (y : List ℚ) :
    ℚ :=
  ((List.range y.length).map (fun i =>
      let d := labelAt y i - predictRow t X rowLength i
      d * d)).sum / (y.length : ℚ)

/-- The split-soundness invariant of C2, stated against the subset a
node was grown from (child subsets are recomputed deterministically from
the stored feature/threshold, which is exactly how the engine derives
them): an internal node exists only when the finder returned a
nonnegative feature index with strictly positive gain, the gain passed
the active min-gain policy, no stopping rule fired, and both children
hold at least `minSamplesLeaf` samples; every leaf's prediction is the
arithmetic mean of its subset's targets. -/
def GainSound (finder : List ℚ → ℕ → List ℚ → List ℕ → ℚ → Int × ℚ × ℚ)
    (crit : List ℚ → List ℕ → ℚ) (minGainOpt : Option ℚ)
    (maxDepth minSamplesLeaf : ℕ) (data : List ℚ) (rowLength : ℕ)
    (labels : List ℚ) : Node → List ℕ → ℕ → Prop
  | .leaf _ _ p _, S, _ => p = meanOf labels S
  | .internal s m fi thr l r, S, d =>
      let res := finder data rowLength labels S (crit labels S)
      0 ≤ res.1 ∧ 0 < res.2.2 ∧ belowMinGain minGainOpt res.2.2 = false ∧
      fi = res.1.toNat ∧ thr = res.2.1 ∧
      s = S.length ∧ m = crit labels S ∧
      d < maxDepth ∧ 2 * minSamplesLeaf ≤ S.length ∧ 2 ≤ S.length ∧
      minSamplesLeaf ≤ (stdPartition data rowLength fi thr S).1.length ∧
      minSamplesLeaf ≤ (stdPartition data rowLength fi thr S).2.length ∧
      GainSound finder crit minGainOpt maxDepth minSamplesLeaf data
        rowLength labels l (stdPartition data rowLength fi thr S).1 (d + 1) ∧
      GainSound finder crit minGainOpt maxDepth minSamplesLeaf data
        rowLength labels r (stdPartition data rowLength fi thr S).2 (d + 1)

theorem gainSound_buildTreeAux
    (finder : List ℚ → ℕ → List ℚ → List ℕ → ℚ → Int × ℚ × ℚ)
    (crit : List ℚ → List ℕ → ℚ) (minGainOpt : Option ℚ)
    (maxDepth minSamplesLeaf : ℕ) (data : List ℚ) (rowLength : ℕ)
    (labels : List ℚ) :
    ∀ (remaining d : ℕ) (S : List ℕ), remaining = maxDepth - d →
      GainSound finder crit minGainOpt maxDepth minSamplesLeaf data
        rowLength labels
        (buildTreeAux finder crit minGainOpt minSamplesLeaf data rowLength
          labels remaining S) S d := by
  intro remaining
  induction remaining with
  | zero =>
      intro d S hrem
      rw [buildTreeAux]
      split
      · rename_i he
        subst he
        simp [Node.makeLeaf, GainSound, meanOf, subsetVals]
      · dsimp only
        simp [Node.makeLeaf, GainSound]
  | succ r ih =>
      intro d S hrem
      rw [buildTreeAux]
      split
      · rename_i he
        subst he
        simp [Node.makeLeaf, GainSound, meanOf, subsetVals]
      · rename_i he
        dsimp only
        split
        · simp [Node.makeLeaf, GainSound]
        · rename_i hstop
          split
          · simp [Node.makeLeaf, GainSound]
          · rename_i hfind
            split
            · simp [Node.makeLeaf, GainSound]
            · rename_i hmg
              split
              · simp [Node.makeLeaf, GainSound]
              · rename_i hsize
                push_neg at hstop hfind hsize
                simp only [GainSound]
                exact ⟨hfind.1, hfind.2, by simpa using hmg, trivial,
                  trivial, trivial, trivial, by omega, by omega, by omega,
                  hsize.1, hsize.2, ih (d + 1) _ (by omega),
                  ih (d + 1) _ (by omega)⟩

/-- C2.  For every tree produced by the growth engine (either path), a
node is the `Internal` variant only when the finder returned
`featureIndex ≥ 0` with strictly positive gain, the gain passed the
active min-gain policy, and both children had at least `minSamplesLeaf`
samples (with no stopping rule fired); every node for which these
conditions fail is a `Leaf` whose prediction is the arithmetic mean of
its subset's targets. -/
theorem c2_internal_only_with_positive_gain
    (finder : List ℚ → ℕ → List ℚ → List ℕ → ℚ → Int × ℚ × ℚ)
    (crit : List ℚ → List ℕ → ℚ) (minGainOpt : Option ℚ)
    (maxDepth minSamplesLeaf : ℕ) (data : List ℚ) (rowLength : ℕ)
    (labels : List ℚ) (S : List ℕ) (d : ℕ) :
    GainSound finder crit minGainOpt maxDepth minSamplesLeaf data rowLength
      labels
      (buildTree finder crit minGainOpt maxDepth minSamplesLeaf data
        rowLength labels S d) S d :=
  gainSound_buildTreeAux finder crit minGainOpt maxDepth minSamplesLeaf
    data rowLength labels (maxDepth - d) d S rfl

set_option maxRecDepth 20000 in
/-- C3.  Scenario A: training MSECriterion + ExhaustiveSplitFinder on
`y = [1,1,1,1,5,5,5,5]` with the single feature `x = [1,…,8]` (which
perfectly separates the two label groups) yields exactly one internal
node — the root, split on feature `0` at threshold `9/2` — whose two
children are leaves predicting `1` and `5`; `evaluate` on the training
data reports MSE `0`.  (Configuration: `maxDepth = 5`,
`minSamplesLeaf = 1`, no min-gain policy.) -/
theorem c3_scenario_a :
    trainGrow exhaustiveFindBestSplit mseNodeMetric none 5 1
        [1, 2, 3, 4, 5, 6, 7, 8] 1 [1, 1, 1, 1, 5, 5, 5, 5] =
      Node.internal 8 4 0 (9/2) (.leaf 4 0 1 1) (.leaf 4 0 5 5) ∧
    evaluateMSE
        (Node.internal 8 4 0 (9/2) (.leaf 4 0 1 1) (.leaf 4 0 5 5))
        [1, 2, 3, 4, 5, 6, 7, 8] 1 [1, 1, 1, 1, 5, 5, 5, 5] = 0 := by
  constructor
  · decide
  · decide

/-- C9 counterexample: `SingleTreeTrainer::train` called with an empty
label array does not refuse or report a failure — it has no input
validation at all (and a `void` return with no exception paths): the
root task carries the empty index list, `splitNodeOptimized` /
`processTask` hit the `indices.empty()` guard and call `makeLeaf(0.0)`,
and training completes with a single-leaf tree predicting `0.0`
(`samples = 0`, `metric = 0`). -/
theorem c9_counterexample_empty_labels_train :
    trainGrow exhaustiveFindBestSplit mseNodeMetric none 5 1 [] 1 [] =
      Node.leaf 0 0 0 0 := by
  decide

/-- C9 amended.  `train` performs no degenerate-input validation: with an
empty label array it produces a single-leaf tree with prediction `0.0`
(for every finder, criterion, min-gain policy and depth/leaf
configuration) instead of refusing to train; size mismatches between the
feature matrix and `rowLength` are likewise not detected (out-of-bounds
reads are undefined behaviour in the C++, not a reported failure). -/
theorem c9_no_validation_empty_labels
    (finder : List ℚ → ℕ → List ℚ → List ℕ → ℚ → Int × ℚ × ℚ)
    (crit : List ℚ → List ℕ → ℚ) (minGainOpt : Option ℚ)
    (maxDepth minSamplesLeaf : ℕ) (data : List ℚ) (rowLength : ℕ) :
    trainGrow finder crit minGainOpt maxDepth minSamplesLeaf data
      rowLength [] = Node.leaf 0 0 0 0 := by
  simp [trainGrow, buildTree, buildTreeAux, Node.makeLeaf]

/-! ## Pruner family (`NoPruner`, `MinGainPrePruner`,
`CostComplexityPruner`, `ReducedErrorPruner`) -/

/-- `NoPruner::prune`: empty body. -/
def noPrune (t : Node) : Node := t

/-- `MinGainPrePruner::prune`: empty body (the min-gain policy acts
during growth, see `belowMinGain`). -/
def minGainPrune (minGain : ℚ) (t : Node) : Node := t

/-- `countLeaves` of `CostComplexityPruner.cpp` (a leaf counts `1`; the
model has no null children). -/
def countLeavesFn : Node → ℕ
  | .leaf _ _ _ _ => 1
  | .internal _ _ _ _ l r => countLeavesFn l + countLeavesFn r

/-- `CostComplexityPruner::pruneRec`: returns the pruned subtree and its
total error (`Σ leaf metric·samples` of the pruned result).  An internal
node is collapsed exactly when `leafCost = metric·samples + α` is `<=`
`subtreeCost = (errLeft + errRight) + α·(leaves of the pruned
children)`; the collapsed leaf's value is `getNodePrediction()` of the
(internal) node, which is `0.0`. -/
def ccPruneRec (alpha : ℚ) : Node → Node × ℚ
  | .leaf s m p np => (.leaf s m p np, m * (s : ℚ))
  | .internal s m fi thr l r =>
      let pl := ccPruneRec alpha l
      let pr := ccPruneRec alpha r
      let subtreeError := pl.2 + pr.2
      let subtreeLeaves : ℕ := countLeavesFn pl.1 + countLeavesFn pr.1
      let leafCost := m * (s : ℚ) + alpha
      let subtreeCost := subtreeError + alpha * (subtreeLeaves : ℚ)
      if leafCost ≤ subtreeCost then
        let nodePred :=
          (Node.internal s m fi thr pl.1 pr.1).getNodePredictionFn
        (Node.makeLeaf s m nodePred nodePred, m * (s : ℚ))
      else
        (Node.internal s m fi thr pl.1 pr.1, subtreeError)

/-- `CostComplexityPruner::prune`. -/
def ccPrune (alpha : ℚ) (t : Node) : Node := (ccPruneRec alpha t).1

/-- `ReducedErrorPruner::validate`: MSE of the subtree rooted at `n`
over the whole held-out validation set (every validation row is routed
from `n`, not only the rows that reach `n` in the full tree). -/
def validate (Xv : List ℚ) (D : ℕ) (yv : List ℚ) (n : Node) : ℚ :=
  ((List.range yv.length).map (fun i =>
      let d := labelAt yv i - predictRow n Xv D i
      d * d)).sum / (yv.length : ℚ)

/-- `ReducedErrorPruner::pruneRec`: prune both children, tentatively
collapse the node to a leaf whose value is `getNodePrediction()` — which
is `0.0` for the internal variant (the C++ fallback `if (leafPrediction
== 0.0 && !oldIsLeaf) leafPrediction = 0.0;` is the identity) — then
keep the collapse iff the validation MSE of the collapsed subtree does
not exceed that of the restored subtree.  The C++ backup/restore of the
children is the state passing below (restoring the union's
`featureIndex`/`threshold` bytes is a memory-level detail outside this
field-level model). -/
def rePruneRec (Xv : List ℚ) (D : ℕ) (yv : List ℚ) : Node → Node
  | .leaf s m p np => .leaf s m p np
  | .internal s m fi thr l r =>
      let pl := rePruneRec Xv D yv l
      let pr := rePruneRec Xv D yv r
      let restored := Node.internal s m fi thr pl pr
      let leafPrediction := restored.getNodePredictionFn
      let collapsed := Node.makeLeaf s m leafPrediction leafPrediction
      let msePruned := validate Xv D yv collapsed
      let mseOriginal := validate Xv D yv restored
      if msePruned ≤ mseOriginal then collapsed else restored

/-- `ReducedErrorPruner::prune`. -/
def rePrune (Xv : List ℚ) (D : ℕ) (yv : List ℚ) (t : Node) : Node :=
  rePruneRec Xv D yv t

/-- "Every internal node was created with strictly positive gain", in
cached-field form: the spec defines `gain = parentMetric −
weightedChildMetric` with weights `childSamples / parentSamples`, so
`gain > 0` at a node with `samples > 0` is exactly
`leftMetric·leftSamples + rightMetric·rightSamples < metric·samples`. -/
def PosGainTree : Node → Prop
  | .leaf _ _ _ _ => True
  | .internal s m _ _ l r =>
      l.metricOf * (l.samplesOf : ℚ) + r.metricOf * (r.samplesOf : ℚ) <
        m * (s : ℚ) ∧
      PosGainTree l ∧ PosGainTree r

instance PosGainTree.dec : (t : Node) → Decidable (PosGainTree t)
  | .leaf _ _ _ _ => .isTrue trivial
  | .internal s m fi thr l r =>
      letI := PosGainTree.dec l
      letI := PosGainTree.dec r
      inferInstanceAs (Decidable (_ ∧ _ ∧ _))

theorem ccPruneRec_zero_of_posGain : ∀ t : Node, PosGainTree t →
    (ccPruneRec 0 t).1 = t ∧
    (ccPruneRec 0 t).2 ≤ t.metricOf * (t.samplesOf : ℚ) := by
  intro t
  induction t with
  | leaf s m p np =>
      intro _
      exact ⟨rfl, le_refl _⟩
  | internal s m fi thr l r ihl ihr =>
      intro h
      simp only [PosGainTree] at h
      obtain ⟨hlt, hl, hr⟩ := h
      have Hl := ihl hl
      have Hr := ihr hr
      simp only [ccPruneRec]
      have hcond : ¬ (m * (s : ℚ) + 0 ≤
          ((ccPruneRec 0 l).2 + (ccPruneRec 0 r).2) +
            0 * ((countLeavesFn (ccPruneRec 0 l).1 +
              countLeavesFn (ccPruneRec 0 r).1 : ℕ) : ℚ)) := by
        push_neg
        have h1 := Hl.2
        have h2 := Hr.2
        simp only [Node.metricOf, Node.samplesOf] at h1 h2 hlt
        linarith
      rw [if_neg hcond]
      constructor
      · simp only [Hl.1, Hr.1]
      · have h1 := Hl.2
        have h2 := Hr.2
        simp only [Node.metricOf, Node.samplesOf] at h1 h2 hlt ⊢
        linarith

/-- C7.  On a tree whose internal nodes were all created with strictly
positive gain, cost-complexity pruning with `α = 0` leaves the tree
unchanged: for every internal node `leafCost = metric·samples` strictly
exceeds the subtree error, so the collapse test `leafCost <=
subtreeCost` never fires. -/
theorem c7_cost_complexity_alpha_zero_identity (t : Node)
    (h : PosGainTree t) : ccPrune 0 t = t :=
  (ccPruneRec_zero_of_posGain t h).1

/-- C7 witness: the Scenario-A tree (root split of positive gain `4`,
children pure) is unchanged by `α = 0` cost-complexity pruning. -/
theorem c7_cost_complexity_alpha_zero_identity_witness :
    PosGainTree
      (Node.internal 8 4 0 (9/2) (.leaf 4 0 1 1) (.leaf 4 0 5 5)) ∧
    ccPrune 0 (Node.internal 8 4 0 (9/2) (.leaf 4 0 1 1) (.leaf 4 0 5 5)) =
      Node.internal 8 4 0 (9/2) (.leaf 4 0 1 1) (.leaf 4 0 5 5) := by
  refine ⟨by decide, ?_⟩
  exact c7_cost_complexity_alpha_zero_identity _ (by decide)

/-- C6.  `ReducedErrorPruner` at a concrete failing input: pruning the
Scenario-A tree (whose root's training-subset mean is `3`) against the
validation set `Xv = [0]`, `yv = [0]` keeps the collapse (collapsed
subtree MSE `0 ≤ 1`), but the collapsed leaf predicts `0.0` — not the
node's mean — because `getNodePrediction()` on the internal variant
returns `0.0` and no mean is cached on internal nodes. -/
theorem c6_reduced_error_collapse_prediction_zero :
    rePrune [0] 1 [0]
        (Node.internal 8 4 0 (9/2) (.leaf 4 0 1 1) (.leaf 4 0 5 5)) =
      Node.leaf 8 4 0 0 := by
  decide

theorem ccPruneRec_idem (alpha : ℚ) :
    ∀ t : Node, ccPruneRec alpha (ccPruneRec alpha t).1 =
      ccPruneRec alpha t := by
  intro t
  induction t with
  | leaf s m p np => rfl
  | internal s m fi thr l r ihl ihr =>
      simp only [ccPruneRec]
      split
      · rename_i hcol
        simp [Node.makeLeaf, Node.getNodePredictionFn, ccPruneRec]
      · rename_i hkeep
        simp only [ccPruneRec, ihl, ihr]
        rw [if_neg hkeep]

theorem rePruneRec_idem (Xv : List ℚ) (D : ℕ) (yv : List ℚ) :
    ∀ t : Node, rePruneRec Xv D yv (rePruneRec Xv D yv t) =
      rePruneRec Xv D yv t := by
  intro t
  induction t with
  | leaf s m p np => rfl
  | internal s m fi thr l r ihl ihr =>
      simp only [rePruneRec]
      split
      · rename_i hcol
        simp [Node.makeLeaf, Node.getNodePredictionFn, rePruneRec]
      · rename_i hkeep
        simp only [rePruneRec, ihl, ihr]
        rw [if_neg hkeep]

/-- C8.  Pruning is idempotent for the whole family: the no-op and
min-gain pruners are the identity, and a second pass of the
cost-complexity or reduced-error pruner changes nothing (each kept node
sees exactly the state it saw on the first pass, each collapsed node is
already a leaf).  The hypothesis `yv ≠ []` restricts the reduced-error
statement to the regime where exact arithmetic models the C++
comparison (with an empty validation set the C++ `mse / 0` is a
floating-point NaN). -/
theorem c8_pruning_idempotent (t : Node) (alpha minGain : ℚ)
    (Xv : List ℚ) (D : ℕ) (yv : List ℚ) (hyv : yv ≠ []) :
    noPrune (noPrune t) = noPrune t ∧
    minGainPrune minGain (minGainPrune minGain t) =
      minGainPrune minGain t ∧
    ccPrune alpha (ccPrune alpha t) = ccPrune alpha t ∧
    rePrune Xv D yv (rePrune Xv D yv t) = rePrune Xv D yv t := by
  refine ⟨rfl, rfl, ?_, rePruneRec_idem Xv D yv t⟩
  show (ccPruneRec alpha (ccPruneRec alpha t).1).1 = (ccPruneRec alpha t).1
  rw [ccPruneRec_idem alpha t]

/-- C8 witness: idempotence discharged on the Scenario-A tree with
`α = 1`, min-gain `1/2`, validation set `Xv = [0]`, `yv = [0]`. -/
theorem c8_pruning_idempotent_witness :
    (([(0 : ℚ)] : List ℚ) ≠ []) ∧
    ccPrune 1 (ccPrune 1
        (Node.internal 8 4 0 (9/2) (.leaf 4 0 1 1) (.leaf 4 0 5 5))) =
      ccPrune 1
        (Node.internal 8 4 0 (9/2) (.leaf 4 0 1 1) (.leaf 4 0 5 5)) ∧
    rePrune [0] 1 [0] (rePrune [0] 1 [0]
        (Node.internal 8 4 0 (9/2) (.leaf 4 0 1 1) (.leaf 4 0 5 5))) =
      rePrune [0] 1 [0]
        (Node.internal 8 4 0 (9/2) (.leaf 4 0 1 1) (.leaf 4 0 5 5)) := by
  refine ⟨by decide, ?_, ?_⟩
  · exact (c8_pruning_idempotent
      (Node.internal 8 4 0 (9/2) (.leaf 4 0 1 1) (.leaf 4 0 5 5))
      1 (1/2) [0] 1 [0] (by decide)).2.2.1
  · exact (c8_pruning_idempotent
      (Node.internal 8 4 0 (9/2) (.leaf 4 0 1 1) (.leaf 4 0 5 5))
      1 (1/2) [0] 1 [0] (by decide)).2.2.2

/-- C10.  `Node::makeLeaf(p, np)` stores `np` as the node prediction when
`np ≠ 0` and falls back to `p` when `np = 0` (a true node mean of exactly
`0.0` is silently replaced by the prediction value), and
`Node::getNodePrediction()` returns `0.0` on every internal-variant node
regardless of the subset mean the node was grown from. -/
theorem c10_makeLeaf_nodePrediction (samples : ℕ) (metric p np : ℚ)
    (fi : ℕ) (thr : ℚ) (l r : Node) :
    ((Node.makeLeaf samples metric p np).getNodePredictionFn =
        if np ≠ 0 then np else p) ∧
    (np ≠ 0 → (Node.makeLeaf samples metric p np).getNodePredictionFn = np) ∧
    (np = 0 → (Node.makeLeaf samples metric p np).getNodePredictionFn = p) ∧
    ((Node.internal samples metric fi thr l r).getNodePredictionFn = 0) := by
  refine ⟨rfl, ?_, ?_, rfl⟩
  · intro h; simp [Node.makeLeaf, Node.getNodePredictionFn, h]
  · intro h; simp [Node.makeLeaf, Node.getNodePredictionFn, h]

/-- C10 witness: a node mean of exactly `0` is replaced by the prediction
value `7`, and an internal node reports node prediction `0`. -/
theorem c10_makeLeaf_nodePrediction_witness :
    (0 : ℚ) = 0 ∧
    (Node.makeLeaf 3 1 7 0).getNodePredictionFn = 7 := by
  refine ⟨rfl, ?_⟩
  exact (c10_makeLeaf_nodePrediction 3 1 7 0 0 0
    (.leaf 0 0 0 0) (.leaf 0 0 0 0)).2.2.1 rfl

end EnsembleTree
